import Mathlib

/-!
Verification of the LineSeperator concurrent file-extraction pipeline
(`src/LINES/main.py`, class `FileExtractor`).

The embedding models the core pipeline:
in-memory `Stats` counters (`session_stats`), the per-file job body
(`process_file`, lines 587-662), the duplicate scan (`is_duplicate`,
lines 664-678), the scheduler (`run`, lines 688-728), the interactive
thread-count clamp from `get_user_input` (line 575), and a small-step
interleaving semantics for the worker pool.

File contents are abstracted to the data the pipeline inspects: a file is
its name, path, suffix, an optional content digest (`none` models an
exception raised inside `calculate_hash`), the per-encoding decode
behaviour (the list of lines each candidate encoding yields, paired with
whether the decode raises after yielding them), and whether the final
write succeeds.  Digests of written output files are produced by an
arbitrary content-to-digest function carried in the configuration,
standing in for MD5.
-/

/-- The seven counters of `session_stats` that the spec names
(`archives_processed` and `start_time` are touched only by out-of-scope
collaborators and are omitted). -/
structure Stats where
  total_files : Nat
  processed : Nat
  skipped : Nat
  errors : Nat
  total_lines : Nat
  filtered_lines : Nat
  duplicates_found : Nat
  deriving DecidableEq

/-- Counters as first set up in `FileExtractor.__init__` (lines 41-51):
zeroed once, at session construction. -/
def zeroStats : Stats := ⟨0, 0, 0, 0, 0, 0, 0⟩

/-- Line 599: `self.stats['skipped'] += 1`. -/
def addSkip (s : Stats) : Stats := { s with skipped := s.skipped + 1 }

/-- Line 659: `self.stats['errors'] += 1`. -/
def addErr (s : Stats) : Stats := { s with errors := s.errors + 1 }

/-- Lines 610-611: duplicate found, both counters bumped. -/
def addDup (s : Stats) : Stats :=
  { s with duplicates_found := s.duplicates_found + 1, skipped := s.skipped + 1 }

/-- Lines 653-655: successful processing. -/
def addProc (w fl : Nat) (s : Stats) : Stats :=
  { s with processed := s.processed + 1, total_lines := s.total_lines + w,
           filtered_lines := s.filtered_lines + fl }

/-- The drained-run aggregate the spec sums. -/
def statSum (s : Stats) : Nat := s.processed + s.skipped + s.errors

/-- One entry of the output directory, as `is_duplicate` inspects it:
a path, whether it is a regular file, and its digest (`none` models
`calculate_hash` raising on it, swallowed by the bare `except`). -/
structure DirEntry where
  path : String
  isFile : Bool
  digest : Option String
  deriving DecidableEq

/-- An input file, abstracted to what `process_file` observes of it. Each
element of `attempts` corresponds to one candidate encoding, in the fixed
order utf-8, latin-1, cp1252, utf-16 of line 619: the lines that encoding
yields before the decode either completes (`false`) or raises
`UnicodeDecodeError` (`true`). -/
structure FileInput where
  name : String
  path : String
  suffix : String
  isFile : Bool
  hashResult : Option String
  attempts : List (List String × Bool)
  writeOk : Bool
  deriving DecidableEq

/-- The run configuration gathered by `get_user_input` (lines 535-585),
plus the digest function applied to written output files (MD5 in the
source, abstract here). -/
structure Ctx where
  file_types : List String
  lines_to_extract : Nat
  filter_terms : List String
  watermark : Bool
  check_duplicates : Bool
  threads : Nat
  hashContent : List String → String
  stamp : String

/-- Python `str.lower()`, character by character. -/
def strLower (s : String) : String := ⟨s.data.map Char.toLower⟩

/-- Substring test on character lists, modelling the Python `in`
operator on strings (empty needle always matches). -/
def strContainsSub (pat : List Char) : List Char → Bool
  | [] => pat.isEmpty
  | c :: t => pat.isPrefixOf (c :: t) || strContainsSub pat t

/-- Line 627: `self.filter_terms and any(term.lower() in line.lower() for
term in self.filter_terms)`. -/
def lineHit (terms : List String) (line : String) : Bool :=
  !terms.isEmpty &&
    terms.any (fun t => strContainsSub (strLower t).data (strLower line).data)

/-- The extension test of line 597 / 697:
`suffix.lower() in [ext.lower() for ext in self.file_types]`. -/
def extAllowed (ctx : Ctx) (f : FileInput) : Bool :=
  (ctx.file_types.map strLower).contains (strLower f.suffix)

/-- The inner `for line in f` loop of lines 622-632, threading the
mutable `lines_written`, `filtered`, `content` state.  Returns the final
state together with the lines the loop did not consume (the loop breaks
at the first line read while `lines_written >= self.lines_to_extract`,
and that line is not processed). -/
def filterLines (terms : List String) (cap : Nat) :
    Nat → Nat → List String → List String → (Nat × Nat × List String) × List String
  | w, f, c, [] => ((w, f, c), [])
  | w, f, c, l :: ls =>
    if cap ≤ w then ((w, f, c), l :: ls)
    else if lineHit terms l then filterLines terms cap w (f + 1) c ls
    else filterLines terms cap (w + 1) f (c ++ [l]) ls

/-- The `for encoding in [...]` loop of lines 619-635.  Each attempt runs
the line loop over the lines that encoding yields.  The attempt raises
`UnicodeDecodeError` exactly when the loop exhausted every yielded line
(so the file object tried to decode further input) and the attempt is
marked as failing; in that case the accumulated state is KEPT (the source
initialises `content`, `lines_written`, `filtered` before the loop, at
lines 615-617, and never resets them between attempts) and the next
encoding is tried.  A successful attempt breaks out of the loop. -/
def decodeAll (terms : List String) (cap : Nat) :
    List (List String × Bool) → Nat × Nat × List String → Nat × Nat × List String
  | [], st => st
  | a :: rest, st =>
    let r := filterLines terms cap st.1 st.2.1 st.2.2 a.1
    if a.2 && r.2.isEmpty then decodeAll terms cap rest r.1 else r.1

/-- `FileExtractor.is_duplicate` (lines 664-678): false when the output
directory does not exist, otherwise scan its entries for a regular file,
different from the candidate path, whose digest equals the candidate
digest (entries whose digest cannot be computed are skipped by the bare
`except`, which the `none` digest models). -/
def is_duplicate (dirExists : Bool) (entries : List DirEntry)
    (filepath : String) (file_hash : String) : Bool :=
  if !dirExists then false
  else entries.any (fun e => e.isFile && e.path != filepath && e.digest == some file_hash)

/-- The provenance block of lines 639-644 (box-drawing decoration
elided): source name, timestamp, line count, first 8 digest characters. -/
def watermarkBlock (ctx : Ctx) (name : String) (lines_written : Nat)
    (file_hash : String) : String :=
  "SOURCE: " ++ name ++ " TIME: " ++ ctx.stamp ++ " LINES: " ++
    toString lines_written ++ " HASH: " ++ ⟨file_hash.data.take 8⟩

/-- The terminal outcome a claimed job reaches inside `process_file`
before any output is written: skip by extension (lines 596-600), error
from hashing (line 605 raising), skip as duplicate (lines 608-612), or
readiness to write the given content with the given line/filter counts
(lines 614-645). -/
inductive Decision where
  | skipExt : Decision
  | err : Decision
  | skipDup : Decision
  | write : Nat → Nat → List String → Decision
  deriving DecidableEq

/-- The read-and-decide portion of one `process_file` iteration: every
step of lines 596-645 up to (not including) the output write.  It reads
the CURRENT output directory for the duplicate scan. -/
def decide_phase (ctx : Ctx) (outdir : List DirEntry) (f : FileInput) : Decision :=
  if !(extAllowed ctx f) then Decision.skipExt
  else
    match f.hashResult with
    | none => Decision.err
    | some h =>
      if ctx.check_duplicates && is_duplicate true outdir f.path h then Decision.skipDup
      else
        match decodeAll ctx.filter_terms ctx.lines_to_extract f.attempts (0, 0, []) with
        | (w, fl, c) =>
          Decision.write w fl
            (if ctx.watermark then c ++ [watermarkBlock ctx f.name w h] else c)

/-- Writing `<outputDir>/extracted_<name>` with mode `w` truncates any
existing file of that name and creates a fresh regular file whose digest
is that of the written content. -/
def upsert (entries : List DirEntry) (p : String) (dg : String) : List DirEntry :=
  entries.filter (fun e => e.path != p) ++ [⟨p, true, some dg⟩]

/-- The commit portion of one `process_file` iteration: the output write
of lines 648-649 (whose failure the outer `except` turns into an error at
line 659) followed by the locked statistics update of the branch taken. -/
def write_phase (ctx : Ctx) (st : List DirEntry × Stats) (f : FileInput)
    (d : Decision) : List DirEntry × Stats :=
  match d with
  | Decision.skipExt => (st.1, addSkip st.2)
  | Decision.err => (st.1, addErr st.2)
  | Decision.skipDup => (st.1, addDup st.2)
  | Decision.write w fl c =>
    if f.writeOk then
      (upsert st.1 ("extracted_" ++ f.name) (ctx.hashContent c), addProc w fl st.2)
    else (st.1, addErr st.2)

/-- One full `process_file` iteration for one claimed job, sequentially:
decide against the current output directory, then commit. -/
def process_file (ctx : Ctx) (st : List DirEntry × Stats) (f : FileInput) :
    List DirEntry × Stats :=
  write_phase ctx st f (decide_phase ctx st.1 f)

/-- The statistics component of `write_phase`, isolated. -/
def statUpd (f : FileInput) (d : Decision) (s : Stats) : Stats :=
  match d with
  | Decision.skipExt => addSkip s
  | Decision.err => addErr s
  | Decision.skipDup => addDup s
  | Decision.write w fl _ => if f.writeOk then addProc w fl s else addErr s

/-- The decision a job reaches when the output directory cannot influence
it (in particular whenever duplicate checking is disabled). -/
def decidePure (ctx : Ctx) (f : FileInput) : Decision := decide_phase ctx [] f

/-- Draining the FIFO queue job by job: the sequential (one-worker)
semantics of the worker loop of lines 589-662. -/
def runJobs (ctx : Ctx) (st : List DirEntry × Stats) (files : List FileInput) :
    List DirEntry × Stats :=
  files.foldl (process_file ctx) st

/-- The file enumeration of lines 696-697: regular files directly under
the input directory whose suffix matches an allowed extension. -/
def enumerateFiles (ctx : Ctx) (dirFiles : List FileInput) : List FileInput :=
  dirFiles.filter (fun f => f.isFile && extAllowed ctx f)

/-- `FileExtractor.run` (lines 688-728) on the session statistics `s`
and the current output directory: enumerate, ASSIGN `total_files` (line
698, an assignment, not an increment), return early when nothing
matched, otherwise drain the queue. -/
def run (ctx : Ctx) (outdir : List DirEntry) (s : Stats)
    (dirFiles : List FileInput) : List DirEntry × Stats :=
  let files := enumerateFiles ctx dirFiles
  let s1 : Stats := { s with total_files := files.length }
  if files.isEmpty then (outdir, s1) else runJobs ctx (outdir, s1) files

/-- Line 575: `min(16, max(1, ...))` applied to the requested thread
count. -/
def clampThreads (x : Int) : Int := min 16 (max 1 x)

/-- Events of the worker-pool interleaving semantics: worker claims job
`i` from the queue and evaluates its decision against the output
directory as it is at that moment (`dec i`), or commits job `i`
(`fin i`). -/
inductive Ev where
  | dec : Nat → Ev
  | fin : Nat → Ev
  deriving DecidableEq

/-- Pool state: shared output directory, shared counters, and the
decisions of claimed-but-uncommitted jobs. -/
structure TState where
  outdir : List DirEntry
  stats : Stats
  pend : List (Nat × Decision)

/-- Decision of claimed job `i`, if still pending. -/
def pendLookup (i : Nat) : List (Nat × Decision) → Option Decision
  | [] => none
  | pr :: rest => if pr.1 = i then some pr.2 else pendLookup i rest

/-- One scheduler step. -/
def step (ctx : Ctx) (jobs : List FileInput) (st : TState) (e : Ev) : TState :=
  match e with
  | Ev.dec i =>
    match jobs[i]? with
    | none => st
    | some f => { st with pend := st.pend ++ [(i, decide_phase ctx st.outdir f)] }
  | Ev.fin i =>
    match jobs[i]?, pendLookup i st.pend with
    | some f, some d =>
      let r := write_phase ctx (st.outdir, st.stats) f d
      { outdir := r.1, stats := r.2, pend := st.pend.filter (fun pr => pr.1 != i) }
    | _, _ => st

/-- Run a whole interleaving. -/
def traceRun (ctx : Ctx) (jobs : List FileInput) (st : TState) (t : List Ev) : TState :=
  t.foldl (step ctx jobs) st

/-- True when the first event of `t` concerning job `i` is its claim
(or `t` never mentions `i`). -/
def decFirst (i : Nat) : List Ev → Bool
  | [] => true
  | Ev.dec j :: rest => if j = i then true else decFirst i rest
  | Ev.fin j :: rest => if j = i then false else decFirst i rest

/-- At most `w` jobs claimed but uncommitted at any time: a pool of `w`
workers, each holding at most one job. -/
def inflightOk (w : Nat) : Nat → List Ev → Bool
  | _, [] => true
  | k, Ev.dec _ :: rest => decide (k + 1 ≤ w) && inflightOk w (k + 1) rest
  | k, Ev.fin _ :: rest => inflightOk w (k - 1) rest

/-- Jobs are claimed in FIFO queue order. -/
def fifoDecs : Option Nat → List Ev → Bool
  | last, [] => last = last
  | last, Ev.fin _ :: rest => fifoDecs last rest
  | none, Ev.dec i :: rest => fifoDecs (some i) rest
  | some j, Ev.dec i :: rest => decide (j < i) && fifoDecs (some i) rest

/-- A complete execution of `n` queued jobs by a pool of `w` workers:
every job is claimed exactly once and committed exactly once, claimed
before committed, claims happen in FIFO order, no events concern
non-jobs, and never more than `w` jobs are in flight. -/
def validTrace (w n : Nat) (t : List Ev) : Bool :=
  (List.range n).all
    (fun i => t.count (Ev.dec i) == 1 && t.count (Ev.fin i) == 1 && decFirst i t) &&
  t.all (fun e => match e with | Ev.dec i => decide (i < n) | Ev.fin i => decide (i < n)) &&
  inflightOk w 0 t &&
  fifoDecs none t

/-- The commit events of a trace, in order. -/
def finIdxs : List Ev → List Nat
  | [] => []
  | Ev.dec _ :: rest => finIdxs rest
  | Ev.fin i :: rest => i :: finIdxs rest

/-- The statistics contribution of job `i`, when decisions do not depend
on the output directory. -/
def statDelta (ctx : Ctx) (jobs : List FileInput) (i : Nat) (s : Stats) : Stats :=
  match jobs[i]? with
  | none => s
  | some f => statUpd f (decidePure ctx f) s

/-- The one-worker interleaving: claim, commit, claim, commit, in queue
order. -/
def canonTrace (n : Nat) : List Ev :=
  (List.range n).flatMap (fun i => [Ev.dec i, Ev.fin i])

/-- Baseline configuration for concrete runs: extract up to 5 lines of
`.txt` files, no filter terms, no watermark, no duplicate checking; the
digest of a written output file is modelled as the concatenation of its
lines. -/
def exCtx : Ctx :=
  { file_types := [".txt"], lines_to_extract := 5, filter_terms := [],
    watermark := false, check_duplicates := false, threads := 1,
    hashContent := String.join, stamp := "" }

/-- Same configuration with duplicate checking on and 8 threads. -/
def exCtxDup : Ctx := { exCtx with check_duplicates := true, threads := 8 }

/-- Same configuration with a line cap of 0 (the unvalidated user input
`0` for the number of lines to extract). -/
def exCtxCap0 : Ctx := { exCtx with lines_to_extract := 0 }

/-- A well-behaved one-line text file whose bytes digest to "x". -/
def exA : FileInput :=
  { name := "a.txt", path := "in_a", suffix := ".txt", isFile := true,
    hashResult := some ("x"),
    attempts := [(["x"], false), ([], false), ([], false), ([], false)],
    writeOk := true }

/-- A second file with the same byte content as `exA`. -/
def exB : FileInput := { exA with name := "b.txt", path := "in_b" }

/-- A non-text file: same directory, disallowed extension. -/
def exJpg : FileInput :=
  { exA with
    name := "b.jpg", path := "in_bjpg", suffix := ".jpg",
    hashResult := some ("y") }

/-- A file that passes the extension check but cannot be read in binary
mode: `calculate_hash` raises. -/
def exHashFail : FileInput :=
  { exA with name := "h.txt", path := "in_h", hashResult := none }

/-- A file whose utf-8 decode yields one line and then raises, and whose
latin-1 decode yields its two lines completely. -/
def exPartialDecode : FileInput :=
  { exA with
    name := "c.txt", path := "in_c", hashResult := some ("h"),
    attempts := [(["a"], true), (["a", "b"], false), ([], false), ([], false)] }

/-- A file on which every candidate encoding raises immediately. -/
def exAllFail : FileInput :=
  { exA with
    name := "d.txt", path := "in_d", hashResult := some ("g"),
    attempts := [([], true), ([], true), ([], true), ([], true)] }

/-- The racy two-worker interleaving: both duplicate checks run before
either write. -/
def exRaceTrace : List Ev := [Ev.dec 0, Ev.dec 1, Ev.fin 0, Ev.fin 1]

/-- First run of a session over the single file `exA`. -/
def exRun1 : List DirEntry × Stats := run exCtx [] zeroStats [exA]

/-- Second run of the same session, reusing the session statistics and
the output directory left by the first run. -/
def exRun2 : List DirEntry × Stats := run exCtx exRun1.1 exRun1.2 [exA]

/-- A directory entry holding digest "k". -/
def exEntry : DirEntry := ⟨"q", true, some ("k")⟩

/-- Pointwise counter comparison: every counter grew (weakly) and the
assigned `total_files` stayed put. -/
def statLe (s s' : Stats) : Prop :=
  s.processed ≤ s'.processed ∧ s.skipped ≤ s'.skipped ∧ s.errors ≤ s'.errors ∧
  s.total_lines ≤ s'.total_lines ∧ s.filtered_lines ≤ s'.filtered_lines ∧
  s.duplicates_found ≤ s'.duplicates_found ∧ s.total_files = s'.total_files

/- ------------------------------------------------------------------ -/
/- Helper lemmas                                                      -/
/- ------------------------------------------------------------------ -/

theorem write_phase_snd (ctx : Ctx) (st : List DirEntry × Stats) (f : FileInput)
    (d : Decision) : (write_phase ctx st f d).2 = statUpd f d st.2 := by
  cases d
  · rfl
  · rfl
  · rfl
  · simp only [write_phase, statUpd]
    split <;> rfl

theorem write_phase_fst (ctx : Ctx) (od : List DirEntry) (s s' : Stats)
    (f : FileInput) (d : Decision) :
    (write_phase ctx (od, s) f d).1 = (write_phase ctx (od, s') f d).1 := by
  cases d
  · rfl
  · rfl
  · rfl
  · simp only [write_phase]
    split <;> rfl

theorem statSum_statUpd (f : FileInput) (d : Decision) (s : Stats) :
    statSum (statUpd f d s) = statSum s + 1 := by
  cases d <;> simp only [statUpd] <;> (try split) <;>
    simp [statSum, addSkip, addErr, addDup, addProc] <;> omega

theorem statUpd_comm (f g : FileInput) (d e : Decision) (s : Stats) :
    statUpd f d (statUpd g e s) = statUpd g e (statUpd f d s) := by
  obtain ⟨tf, p, sk, er, tl, fl, df⟩ := s
  cases d <;> cases e <;>
    simp only [statUpd] <;> (try split) <;> (try split) <;>
    simp [addSkip, addErr, addDup, addProc, Stats.mk.injEq] <;> omega

theorem decide_phase_hashFail (ctx : Ctx) (od : List DirEntry) (f : FileInput)
    (hext : extAllowed ctx f = true) (hh : f.hashResult = none) :
    decide_phase ctx od f = Decision.err := by
  simp [decide_phase, hext, hh]

theorem process_file_hashFail (ctx : Ctx) (st : List DirEntry × Stats) (f : FileInput)
    (hext : extAllowed ctx f = true) (hh : f.hashResult = none) :
    process_file ctx st f = (st.1, addErr st.2) := by
  simp [process_file, decide_phase_hashFail ctx st.1 f hext hh, write_phase]

theorem process_file_addErr (ctx : Ctx) (od : List DirEntry) (s : Stats) (f : FileInput) :
    process_file ctx (od, addErr s) f =
      ((process_file ctx (od, s) f).1, addErr (process_file ctx (od, s) f).2) := by
  unfold process_file
  have h1 := write_phase_fst ctx od (addErr s) s f (decide_phase ctx od f)
  have h2 := write_phase_snd ctx (od, addErr s) f (decide_phase ctx od f)
  have h3 := write_phase_snd ctx (od, s) f (decide_phase ctx od f)
  have hcomm := statUpd_comm f f (decide_phase ctx od f) Decision.err s
  apply Prod.ext
  · exact h1
  · show (write_phase ctx (od, addErr s) f (decide_phase ctx od f)).2 = _
    rw [h2, h3]
    exact hcomm

theorem runJobs_addErr (ctx : Ctx) (l : List FileInput) :
    ∀ (od : List DirEntry) (s : Stats),
    runJobs ctx (od, addErr s) l =
      ((runJobs ctx (od, s) l).1, addErr (runJobs ctx (od, s) l).2) := by
  induction l with
  | nil => intro od s; rfl
  | cons f l ih =>
    intro od s
    simp only [runJobs, List.foldl_cons]
    rw [process_file_addErr]
    rcases h : process_file ctx (od, s) f with ⟨od1, s1⟩
    have := ih od1 s1
    simp only [runJobs] at this
    rw [this]

/- ------------------------------------------------------------------ -/
/- C6                                                                 -/
/- ------------------------------------------------------------------ -/

/-- C6: `is_duplicate` returns true exactly when the output directory
exists and some regular file in it, other than the excluded path, has a
digest equal to the candidate digest; in particular it returns false when
the directory does not exist, and false when no entry carries that
digest. -/
theorem C6_is_duplicate_iff (d : Bool) (es : List DirEntry) (fp h : String) :
    (is_duplicate d es fp h = true ↔
      d = true ∧ ∃ e ∈ es, e.isFile = true ∧ e.path ≠ fp ∧ e.digest = some h) ∧
    is_duplicate false es fp h = false ∧
    ((∀ e ∈ es, e.digest ≠ some h) → is_duplicate d es fp h = false) := by
  refine ⟨?_, ?_, ?_⟩
  · cases d <;> simp [is_duplicate, List.any_eq_true, and_assoc]
  · simp [is_duplicate]
  · intro hnone
    cases d <;> simp [is_duplicate, List.any_eq_true]
    intro e he hf hp
    exact hnone e he

/-- Witness: a directory with one matching entry is a duplicate; a
nonexistent directory and a mismatched digest are not. -/
theorem C6_is_duplicate_iff_witness :
    is_duplicate true [exEntry] "p" "k" = true ∧
    is_duplicate false [exEntry] "p" "k" = false ∧
    is_duplicate true [exEntry] "p" "z" = false := by
  refine ⟨?_, ?_, ?_⟩
  · exact (C6_is_duplicate_iff true [exEntry] "p" "k").1.mpr
      ⟨rfl, exEntry, by simp, rfl, by decide, rfl⟩
  · exact (C6_is_duplicate_iff false [exEntry] "p" "k").2.1
  · exact (C6_is_duplicate_iff true [exEntry] "p" "z").2.2 (by decide)

/- ------------------------------------------------------------------ -/
/- C3                                                                 -/
/- ------------------------------------------------------------------ -/

/-- C3 is contradicted by the code: on `exPartialDecode` (utf-8 yields
line "a" then raises, latin-1 yields "a", "b" completely) the job keeps
the line from the failed attempt and extracts "a", "a", "b" instead of
"a", "b"; on `exAllFail` (all four encodings raise) no DecodeError is
signalled: the accumulated empty content is written and the job counts
as processed, not as an error. -/
theorem C3_decode_divergence :
    decide_phase exCtx [] exPartialDecode = Decision.write 3 0 ["a", "a", "b"] ∧
    decide_phase exCtx [] exAllFail = Decision.write 0 0 [] ∧
    (process_file exCtx ([], zeroStats) exAllFail).2.errors = 0 ∧
    (process_file exCtx ([], zeroStats) exAllFail).2.processed = 1 := by
  exact ⟨by decide, by decide, by decide, by decide⟩

/- ------------------------------------------------------------------ -/
/- C10                                                                -/
/- ------------------------------------------------------------------ -/

/-- C10: for any configuration (in particular with duplicate checking
and watermarking both disabled) and any file that passes the extension
check, a failure of `calculate_hash` (line 605, before any decoding)
makes the job an error: no output entry is created and the error counter
is the only counter incremented. -/
theorem C10_hash_unconditional (ctx : Ctx) (od : List DirEntry) (s : Stats)
    (f : FileInput) (hext : extAllowed ctx f = true) (hh : f.hashResult = none) :
    decide_phase ctx od f = Decision.err ∧
    process_file ctx (od, s) f = (od, addErr s) ∧
    (addErr s).errors = s.errors + 1 ∧
    (addErr s).processed = s.processed ∧
    (addErr s).skipped = s.skipped := by
  exact ⟨decide_phase_hashFail ctx od f hext hh,
    process_file_hashFail ctx (od, s) f hext hh, rfl, rfl, rfl⟩

/-- Witness: `exHashFail` has an allowed extension, no readable bytes,
and both duplicate checking and watermarking disabled in `exCtx`. -/
theorem C10_hash_unconditional_witness :
    extAllowed exCtx exHashFail = true ∧ exHashFail.hashResult = none ∧
    exCtx.check_duplicates = false ∧ exCtx.watermark = false ∧
    process_file exCtx ([], zeroStats) exHashFail = ([], addErr zeroStats) :=
  ⟨by decide, rfl, rfl, rfl,
    (C10_hash_unconditional exCtx [] zeroStats exHashFail (by decide) rfl).2.1⟩

/- ------------------------------------------------------------------ -/
/- Counterexamples for C1, C4, C7, C8, C9                             -/
/- ------------------------------------------------------------------ -/

/-- C1 as stated fails: the session counters are never reset between
runs, so after the second run of a session (one matching file per run)
the drained aggregate is processed + skipped + errors = 2 while
total_files, reassigned by the second run, is 1. -/
theorem C1_counterexample :
    exRun2.2.processed + exRun2.2.skipped + exRun2.2.errors = 2 ∧
    exRun2.2.total_files = 1 ∧
    statSum exRun2.2 ≠ exRun2.2.total_files := by
  exact ⟨by decide, by decide, by decide⟩

/-- C4 as stated fails: over a directory with `a.txt` and `b.jpg` and
allowed extensions [".txt"], the non-matching file is dropped at
enumeration and never becomes a job, so the final skipped counter is 0,
not 1 (processed is 1 as claimed). -/
theorem C4_counterexample :
    (run exCtx [] zeroStats [exA, exJpg]).2.skipped = 0 ∧
    (run exCtx [] zeroStats [exA, exJpg]).2.skipped ≠ 1 ∧
    (run exCtx [] zeroStats [exA, exJpg]).2.processed = 1 ∧
    (run exCtx [] zeroStats [exA, exJpg]).2.total_files = 1 := by
  exact ⟨by decide, by decide, by decide, by decide⟩

/-- C7 as stated fails: the statistics handed to the second run of a
session still hold the first run's counts (processed = 1, not 0), and
the second run keeps accumulating from them. -/
theorem C7_counterexample :
    exRun2 = run exCtx exRun1.1 exRun1.2 [exA] ∧
    exRun1.2.processed = 1 ∧
    exRun1.2.processed ≠ 0 ∧
    exRun2.2.processed = 2 := by
  exact ⟨rfl, by decide, by decide, by decide⟩

/-- C8 as stated fails: no ConfigError exists.  An out-of-range thread
count is silently clamped into 1..16 (line 575), and a line cap of 0 is
accepted as-is, after which the run starts normally and processes the
enqueued file (writing an empty extraction) instead of refusing to
start. -/
theorem C8_counterexample :
    clampThreads 20 = 16 ∧
    clampThreads 0 = 1 ∧
    (run exCtxCap0 [] zeroStats [exA]).2.processed = 1 ∧
    (run exCtxCap0 [] zeroStats [exA]).2.total_files = 1 ∧
    (run exCtxCap0 [] zeroStats [exA]).2.errors = 0 := by
  exact ⟨by decide, by decide, by decide, by decide, by decide⟩

/-- C9 as stated fails: with duplicate checking enabled, over two
byte-identical input files, the valid 8-worker interleaving in which both
duplicate scans run before either output write yields processed = 2 and
no duplicates, while the 1-worker execution yields processed = 1,
skipped = 1, one duplicate.  Final Stats are not worker-count
invariant. -/
theorem C9_counterexample :
    validTrace 8 2 exRaceTrace = true ∧
    validTrace 1 2 (canonTrace 2) = true ∧
    (traceRun exCtxDup [exA, exB] ⟨[], zeroStats, []⟩ exRaceTrace).stats ≠
      (traceRun exCtxDup [exA, exB] ⟨[], zeroStats, []⟩ (canonTrace 2)).stats := by
  exact ⟨by decide, by decide, by decide⟩

/- ------------------------------------------------------------------ -/
/- C2                                                                 -/
/- ------------------------------------------------------------------ -/

theorem filterLines_spec (terms : List String) (cap : Nat) (lines : List String) :
    ∀ (w f : Nat) (c : List String), w ≤ cap →
    ∃ consumed rem,
      lines = consumed ++ rem ∧
      filterLines terms cap w f c lines =
        ((w + (consumed.filter (fun l => !lineHit terms l)).length,
          f + consumed.countP (fun l => lineHit terms l),
          c ++ consumed.filter (fun l => !lineHit terms l)), rem) ∧
      w + (consumed.filter (fun l => !lineHit terms l)).length ≤ cap ∧
      (rem ≠ [] → w + (consumed.filter (fun l => !lineHit terms l)).length = cap) ∧
      (∀ k, k < consumed.length →
        w + ((consumed.take k).filter (fun l => !lineHit terms l)).length < cap) := by
  induction lines with
  | nil =>
    intro w f c hw
    exact ⟨[], [], by simp, by simp [filterLines], by simpa, by simp, by simp⟩
  | cons l ls ih =>
    intro w f c hw
    by_cases hcap : cap ≤ w
    · refine ⟨[], l :: ls, by simp, by simp [filterLines, hcap], by simpa, ?_, by simp⟩
      intro _
      simp
      omega
    · by_cases hhit : lineHit terms l = true
      · obtain ⟨cs, rm, heq, hfl, hle, hcr, hmin⟩ := ih w (f + 1) c hw
        refine ⟨l :: cs, rm, by simp [heq], ?_, ?_, ?_, ?_⟩
        · have hstep : filterLines terms cap w f c (l :: ls) =
              filterLines terms cap w (f + 1) c ls := by
            simp [filterLines, hcap, hhit]
          rw [hstep, hfl]
          simp [List.filter_cons, List.countP_cons, hhit, Prod.ext_iff]
          omega
        · simpa [List.filter_cons, hhit] using hle
        · simpa [List.filter_cons, hhit] using hcr
        · intro k hk
          match k with
          | 0 => simpa using Nat.lt_of_not_le hcap
          | Nat.succ k =>
            have hk' : k < cs.length := by simpa using hk
            simpa [List.filter_cons, hhit] using hmin k hk'
      · have hw' : w + 1 ≤ cap := Nat.succ_le_of_lt (Nat.lt_of_not_le hcap)
        obtain ⟨cs, rm, heq, hfl, hle, hcr, hmin⟩ := ih (w + 1) f (c ++ [l]) hw'
        refine ⟨l :: cs, rm, by simp [heq], ?_, ?_, ?_, ?_⟩
        · have hstep : filterLines terms cap w f c (l :: ls) =
              filterLines terms cap (w + 1) f (c ++ [l]) ls := by
            simp [filterLines, hcap, hhit]
          rw [hstep, hfl]
          simp [List.filter_cons, List.countP_cons, hhit, Prod.ext_iff]
          omega
        · simp [List.filter_cons, hhit]
          omega
        · intro hrm
          have := hcr hrm
          simp [List.filter_cons, hhit]
          omega
        · intro k hk
          match k with
          | 0 => simpa using Nat.lt_of_not_le hcap
          | Nat.succ k =>
            have hk' : k < cs.length := by simpa using hk
            have := hmin k hk'
            simp [List.take_succ_cons, List.filter_cons, hhit]
            omega

/-- C2: starting from the fresh per-file state, the retained content is
exactly the first `cap` lines (in order) whose lowercased form contains
no exclusion term, `lines_written` equals its length, the loop consumes
a prefix of the source on which `filtered` counts exactly the discarded
lines, consumption stops as soon as the cap is reached (any unconsumed
remainder implies the cap was reached, and no shorter prefix had already
reached it), and an empty term set filters nothing. -/
theorem C2_line_filter (terms : List String) (cap : Nat) (lines : List String) :
    (filterLines terms cap 0 0 [] lines).1.2.2 =
      (lines.filter (fun l => !lineHit terms l)).take cap ∧
    (filterLines terms cap 0 0 [] lines).1.1 =
      ((lines.filter (fun l => !lineHit terms l)).take cap).length ∧
    (∃ consumed rem,
      lines = consumed ++ rem ∧
      (filterLines terms cap 0 0 [] lines).2 = rem ∧
      (filterLines terms cap 0 0 [] lines).1.2.1 =
        consumed.countP (fun l => lineHit terms l) ∧
      (rem ≠ [] → ((filterLines terms cap 0 0 [] lines).1.2.2).length = cap) ∧
      (∀ k, k < consumed.length →
        ((consumed.take k).filter (fun l => !lineHit terms l)).length < cap)) ∧
    (terms = [] → (filterLines terms cap 0 0 [] lines).1.2.1 = 0) := by
  obtain ⟨cs, rm, heq, hfl, hle, hcr, hmin⟩ :=
    filterLines_spec terms cap lines 0 0 [] (Nat.zero_le cap)
  simp only [Nat.zero_add, List.nil_append] at hfl hle hcr hmin
  have hsplit : lines.filter (fun l => !lineHit terms l) =
      cs.filter (fun l => !lineHit terms l) ++ rm.filter (fun l => !lineHit terms l) := by
    rw [heq, List.filter_append]
  have hcontent : cs.filter (fun l => !lineHit terms l) =
      (lines.filter (fun l => !lineHit terms l)).take cap := by
    cases hr : rm with
    | nil =>
      have hcs : cs = lines := by simpa [hr] using heq.symm
      rw [hcs] at hle ⊢
      exact (List.take_of_length_le hle).symm
    | cons a t =>
      have hcap : (cs.filter (fun l => !lineHit terms l)).length = cap := by
        apply hcr
        simp [hr]
      rw [hsplit, hr] at *
      rw [← hcap, List.take_left]
  refine ⟨?_, ?_, ⟨cs, rm, heq, ?_, ?_, ?_, ?_⟩, ?_⟩
  · rw [hfl]
    exact hcontent
  · rw [hfl]
    simp only
    rw [hcontent]
  · rw [hfl]
  · rw [hfl]
  · intro hrm
    rw [hfl]
    simp only
    rw [hcontent] at hcr ⊢
    exact hcr hrm
  · exact hmin
  · intro ht
    rw [hfl]
    simp only
    apply List.countP_eq_zero.mpr
    intro a _
    simp [lineHit, ht]

/-- Witness: concrete evaluation of the filter loop through the claim
theorem. -/
theorem C2_line_filter_witness :
    (filterLines ["er"] 2 0 0 [] ["ok1", "ERror", "ok2", "ok3"]).1.2.2 =
      ((["ok1", "ERror", "ok2", "ok3"].filter
        (fun l => !lineHit ["er"] l)).take 2) ∧
    ([] = ([] : List String) → (filterLines [] 2 0 0 [] ["a"]).1.2.1 = 0) :=
  ⟨(C2_line_filter ["er"] 2 ["ok1", "ERror", "ok2", "ok3"]).1,
    fun _ => (C2_line_filter [] 2 ["a"]).2.2.2 rfl⟩

/- ------------------------------------------------------------------ -/
/- C1, C7: aggregate invariants                                       -/
/- ------------------------------------------------------------------ -/

theorem process_file_snd (ctx : Ctx) (st : List DirEntry × Stats) (f : FileInput) :
    (process_file ctx st f).2 = statUpd f (decide_phase ctx st.1 f) st.2 :=
  write_phase_snd ctx st f (decide_phase ctx st.1 f)

theorem process_file_statSum (ctx : Ctx) (st : List DirEntry × Stats) (f : FileInput) :
    statSum (process_file ctx st f).2 = statSum st.2 + 1 := by
  rw [process_file_snd]
  exact statSum_statUpd f (decide_phase ctx st.1 f) st.2

theorem runJobs_statSum (ctx : Ctx) (l : List FileInput) :
    ∀ (od : List DirEntry) (s : Stats),
    statSum (runJobs ctx (od, s) l).2 = statSum s + l.length := by
  induction l with
  | nil => intro od s; simp [runJobs]
  | cons f l ih =>
    intro od s
    rcases hpf : process_file ctx (od, s) f with ⟨od1, s1⟩
    have h1 : statSum s1 = statSum s + 1 := by
      have := process_file_statSum ctx (od, s) f
      rw [hpf] at this
      exact this
    simp only [runJobs, List.foldl_cons, hpf]
    have h2 := ih od1 s1
    simp only [runJobs] at h2
    rw [h2]
    simp only [List.length_cons]
    omega

theorem statUpd_dup_le (f : FileInput) (d : Decision) (s : Stats)
    (h : s.duplicates_found ≤ s.skipped) :
    (statUpd f d s).duplicates_found ≤ (statUpd f d s).skipped := by
  cases d <;> simp only [statUpd] <;> (try split) <;>
    simp [addSkip, addErr, addDup, addProc] <;> omega

theorem runJobs_dup_le (ctx : Ctx) (l : List FileInput) :
    ∀ (od : List DirEntry) (s : Stats), s.duplicates_found ≤ s.skipped →
    (runJobs ctx (od, s) l).2.duplicates_found ≤ (runJobs ctx (od, s) l).2.skipped := by
  induction l with
  | nil => intro od s h; simpa [runJobs] using h
  | cons f l ih =>
    intro od s h
    have h1 : (process_file ctx (od, s) f).2.duplicates_found ≤
        (process_file ctx (od, s) f).2.skipped := by
      rw [process_file_snd]
      exact statUpd_dup_le f (decide_phase ctx od f) s h
    rcases hpf : process_file ctx (od, s) f with ⟨od1, s1⟩
    rw [hpf] at h1
    simp only [runJobs, List.foldl_cons, hpf]
    exact ih od1 s1 h1

theorem statUpd_statLe (f : FileInput) (d : Decision) (s : Stats) :
    statLe s (statUpd f d s) := by
  cases d <;> simp only [statUpd] <;> (try split) <;>
    simp [statLe, addSkip, addErr, addDup, addProc] <;> omega

theorem statLe_trans (a b c : Stats) (h1 : statLe a b) (h2 : statLe b c) :
    statLe a c := by
  simp only [statLe] at *
  omega

theorem runJobs_statLe (ctx : Ctx) (l : List FileInput) :
    ∀ (od : List DirEntry) (s : Stats), statLe s (runJobs ctx (od, s) l).2 := by
  induction l with
  | nil => intro od s; simp [runJobs, statLe]
  | cons f l ih =>
    intro od s
    have h1 : statLe s (process_file ctx (od, s) f).2 := by
      rw [process_file_snd]
      exact statUpd_statLe f (decide_phase ctx od f) s
    rcases hpf : process_file ctx (od, s) f with ⟨od1, s1⟩
    rw [hpf] at h1
    simp only [runJobs, List.foldl_cons, hpf]
    exact statLe_trans s s1 _ h1 (ih od1 s1)

theorem run_statSum (ctx : Ctx) (od : List DirEntry) (s : Stats)
    (dirFiles : List FileInput) :
    statSum (run ctx od s dirFiles).2 =
      statSum s + (enumerateFiles ctx dirFiles).length ∧
    (run ctx od s dirFiles).2.total_files = (enumerateFiles ctx dirFiles).length := by
  unfold run
  by_cases he : (enumerateFiles ctx dirFiles).isEmpty
  · have hlen : (enumerateFiles ctx dirFiles).length = 0 := by
      simpa [List.isEmpty_iff_length_eq_zero] using he
    simp [he, statSum, hlen]
  · simp only [he, Bool.false_eq_true, if_false]
    constructor
    · rw [runJobs_statSum]
      simp [statSum]
    · have := (runJobs_statLe ctx (enumerateFiles ctx dirFiles) od
        { s with total_files := (enumerateFiles ctx dirFiles).length }).2.2.2.2.2.2
      simpa using this.symm

/-- C1 amended: starting from zeroed session counters (the first run of
a session), once the queue is drained processed + skipped + errors equals
total_files and duplicates_found never exceeds skipped; in general each
claimed job adds exactly one to exactly one of processed/skipped/errors,
so a run increases that aggregate by exactly the number of enqueued
jobs (the as-stated claim fails for later runs of the same session,
whose counters are not reset). -/
theorem C1_drained_invariant (ctx : Ctx) (od : List DirEntry)
    (dirFiles : List FileInput) :
    statSum (run ctx od zeroStats dirFiles).2 =
      (run ctx od zeroStats dirFiles).2.total_files ∧
    (run ctx od zeroStats dirFiles).2.duplicates_found ≤
      (run ctx od zeroStats dirFiles).2.skipped ∧
    (∀ s : Stats, statSum (run ctx od s dirFiles).2 =
      statSum s + (enumerateFiles ctx dirFiles).length) ∧
    (∀ (st : List DirEntry × Stats) (f : FileInput),
      statSum (process_file ctx st f).2 = statSum st.2 + 1) := by
  obtain ⟨h1, h2⟩ := run_statSum ctx od zeroStats dirFiles
  refine ⟨by rw [h1, h2]; simp [zeroStats, statSum], ?_,
    fun s => (run_statSum ctx od s dirFiles).1,
    fun st f => process_file_statSum ctx st f⟩
  unfold run
  by_cases he : (enumerateFiles ctx dirFiles).isEmpty
  · simp [he, zeroStats]
  · simp only [he, Bool.false_eq_true, if_false]
    exact runJobs_dup_le ctx (enumerateFiles ctx dirFiles) od _ (Nat.le_refl 0)

/-- C7 amended: the counters are zeroed once, at session construction
(`__init__`), not at each run start; within one run, after `run` assigns
`total_files` the enqueued-file count, every job only increases the
remaining counters and leaves `total_files` unchanged, and the returned
statistics are the live session object, read, not reset. -/
theorem C7_session_monotone (ctx : Ctx) :
    (zeroStats.processed = 0 ∧ zeroStats.skipped = 0 ∧ zeroStats.errors = 0 ∧
      zeroStats.total_files = 0 ∧ zeroStats.total_lines = 0 ∧
      zeroStats.filtered_lines = 0 ∧ zeroStats.duplicates_found = 0) ∧
    (∀ (st : List DirEntry × Stats) (f : FileInput),
      statLe st.2 (process_file ctx st f).2) ∧
    (∀ (od : List DirEntry) (s : Stats) (dirFiles : List FileInput),
      statLe { s with total_files := (enumerateFiles ctx dirFiles).length }
        (run ctx od s dirFiles).2) := by
  refine ⟨⟨rfl, rfl, rfl, rfl, rfl, rfl, rfl⟩, ?_, ?_⟩
  · intro st f
    rw [process_file_snd]
    exact statUpd_statLe f (decide_phase ctx st.1 f) st.2
  · intro od s dirFiles
    unfold run
    by_cases he : (enumerateFiles ctx dirFiles).isEmpty
    · simp [he, statLe]
    · simp only [he, Bool.false_eq_true, if_false]
      exact runJobs_statLe ctx (enumerateFiles ctx dirFiles) od _

/- ------------------------------------------------------------------ -/
/- C4: extension handling                                             -/
/- ------------------------------------------------------------------ -/

theorem process_file_badExt (ctx : Ctx) (st : List DirEntry × Stats) (g : FileInput)
    (h : extAllowed ctx g = false) :
    process_file ctx st g = (st.1, addSkip st.2) := by
  have hd : decide_phase ctx st.1 g = Decision.skipExt := by
    simp [decide_phase, h]
  simp [process_file, hd, write_phase]

theorem process_file_outdir (ctx : Ctx) (od : List DirEntry) (s : Stats)
    (f : FileInput) (e : DirEntry) (he : e ∈ (process_file ctx (od, s) f).1) :
    e ∈ od ∨ e.path = "extracted_" ++ f.name := by
  cases hd : decide_phase ctx od f with
  | skipExt => simp [process_file, hd, write_phase] at he; exact Or.inl he
  | err => simp [process_file, hd, write_phase] at he; exact Or.inl he
  | skipDup => simp [process_file, hd, write_phase] at he; exact Or.inl he
  | write w fl c =>
    by_cases hw : f.writeOk
    · simp [process_file, hd, write_phase, hw, upsert] at he
      rcases he with ⟨hmem, _⟩ | hnew
      · exact Or.inl hmem
      · right
        rw [hnew]
    · simp [process_file, hd, write_phase, hw] at he
      exact Or.inl he

theorem runJobs_outdir (ctx : Ctx) (l : List FileInput) :
    ∀ (od : List DirEntry) (s : Stats) (e : DirEntry),
    e ∈ (runJobs ctx (od, s) l).1 →
    e ∈ od ∨ ∃ f, f ∈ l ∧ e.path = "extracted_" ++ f.name := by
  induction l with
  | nil =>
    intro od s e he
    exact Or.inl (by simpa [runJobs] using he)
  | cons f l ih =>
    intro od s e he
    rcases hpf : process_file ctx (od, s) f with ⟨od1, s1⟩
    simp only [runJobs, List.foldl_cons, hpf] at he
    have he' : e ∈ (runJobs ctx (od1, s1) l).1 := he
    rcases ih od1 s1 e he' with h | ⟨g, hg, hp⟩
    · have hsub : e ∈ (process_file ctx (od, s) f).1 := by
        rw [hpf]
        exact h
      rcases process_file_outdir ctx od s f e hsub with h2 | h2
      · exact Or.inl h2
      · exact Or.inr ⟨f, List.mem_cons_self f l, h2⟩
    · exact Or.inr ⟨g, List.mem_cons_of_mem f hg, hp⟩

/-- C4 amended: files whose extension is not allowed are dropped at
enumeration (line 696-697) and never become jobs: they leave every
counter unchanged (running on the directory equals running on its
matching subset), every output file created by a run is named after an
enumerated (hence extension-matching) input, and the defensive in-job
extension branch (lines 596-600) would merely count one skip if such a
file were ever enqueued.  In the spec scenario (`a.txt` and `b.jpg`,
allowed [".txt"]) the final statistics are processed = 1 and
skipped = 0, not skipped = 1. -/
theorem C4_extension_handling (ctx : Ctx) (od : List DirEntry) (s : Stats)
    (dirFiles : List FileInput) :
    run ctx od s dirFiles =
      run ctx od s (dirFiles.filter (fun f => f.isFile && extAllowed ctx f)) ∧
    (∀ e, e ∈ (run ctx od s dirFiles).1 →
      e ∈ od ∨ ∃ f, f ∈ enumerateFiles ctx dirFiles ∧
        e.path = "extracted_" ++ f.name) ∧
    (∀ (st : List DirEntry × Stats) (g : FileInput), extAllowed ctx g = false →
      process_file ctx st g = (st.1, addSkip st.2)) ∧
    (run exCtx [] zeroStats [exA, exJpg]).2.processed = 1 ∧
    (run exCtx [] zeroStats [exA, exJpg]).2.skipped = 0 := by
  have henum : enumerateFiles ctx
      (dirFiles.filter (fun f => f.isFile && extAllowed ctx f)) =
      enumerateFiles ctx dirFiles := by
    unfold enumerateFiles
    rw [List.filter_filter]
    simp [Bool.and_self]
  refine ⟨?_, ?_, fun st g h => process_file_badExt ctx st g h, by decide, by decide⟩
  · unfold run
    rw [henum]
  · intro e he
    unfold run at he
    by_cases hemp : (enumerateFiles ctx dirFiles).isEmpty
    · simp only [hemp, if_true] at he
      exact Or.inl he
    · simp only [hemp, Bool.false_eq_true, if_false] at he
      exact runJobs_outdir ctx (enumerateFiles ctx dirFiles) od _ e he

/-- Witness: the in-job extension branch on the non-matching `exJpg`. -/
theorem C4_extension_handling_witness :
    extAllowed exCtx exJpg = false ∧
    process_file exCtx ([], zeroStats) exJpg = ([], addSkip zeroStats) :=
  ⟨by decide,
    (C4_extension_handling exCtx [] zeroStats [exA, exJpg]).2.2.1
      ([], zeroStats) exJpg (by decide)⟩

/- ------------------------------------------------------------------ -/
/- C5: per-file failure isolation                                     -/
/- ------------------------------------------------------------------ -/

/-- C5: a job whose file passes the extension check but whose hashing
raises contributes exactly one error: the run over the queue with that
job inserted anywhere equals the run over the queue without it, with the
error counter one higher, the output directory identical, and every
other queued job processed exactly as before; the failing job never
terminates the worker loop. -/
theorem C5_failure_isolation (ctx : Ctx) (od : List DirEntry) (s : Stats)
    (pre post : List FileInput) (f : FileInput)
    (hext : extAllowed ctx f = true) (hh : f.hashResult = none) :
    runJobs ctx (od, s) (pre ++ f :: post) =
      ((runJobs ctx (od, s) (pre ++ post)).1,
        addErr (runJobs ctx (od, s) (pre ++ post)).2) ∧
    (runJobs ctx (od, s) (pre ++ f :: post)).2.errors =
      (runJobs ctx (od, s) (pre ++ post)).2.errors + 1 := by
  have key : ∀ (od' : List DirEntry) (s' : Stats),
      runJobs ctx (od', s') (f :: post) =
        ((runJobs ctx (od', s') post).1, addErr (runJobs ctx (od', s') post).2) := by
    intro od' s'
    have hpf := process_file_hashFail ctx (od', s') f hext hh
    simp only [runJobs, List.foldl_cons, hpf]
    exact runJobs_addErr ctx post od' (s' : Stats)
  have hsplit : ∀ (rest : List FileInput),
      runJobs ctx (od, s) (pre ++ rest) =
        runJobs ctx (runJobs ctx (od, s) pre) rest := by
    intro rest
    simp [runJobs, List.foldl_append]
  constructor
  · rw [hsplit (f :: post), hsplit post]
    rcases hp : runJobs ctx (od, s) pre with ⟨od1, s1⟩
    exact key od1 s1
  · rw [hsplit (f :: post), hsplit post]
    rcases hp : runJobs ctx (od, s) pre with ⟨od1, s1⟩
    rw [key od1 s1]
    rfl

/-- Witness: a hash-failing job between two good jobs adds exactly one
error and changes nothing else. -/
theorem C5_failure_isolation_witness :
    runJobs exCtx ([], zeroStats) [exA, exHashFail, exB] =
      ((runJobs exCtx ([], zeroStats) [exA, exB]).1,
        addErr (runJobs exCtx ([], zeroStats) [exA, exB]).2) :=
  (C5_failure_isolation exCtx [] zeroStats [exA] [exB] exHashFail (by decide) rfl).1

/- ------------------------------------------------------------------ -/
/- C8: configuration validation                                       -/
/- ------------------------------------------------------------------ -/

/-- C8 amended: there is no ConfigError.  A missing input directory is
re-prompted interactively and never reaches `run`; an out-of-range
thread count is silently clamped into 1..16 (an in-range one is kept);
and a line cap of 0 is accepted unvalidated, after which the run starts
and drains every enqueued job normally. -/
theorem C8_no_config_error :
    (∀ x : Int, 1 ≤ clampThreads x ∧ clampThreads x ≤ 16 ∧
      (1 ≤ x → x ≤ 16 → clampThreads x = x)) ∧
    (∀ (ctx : Ctx) (od : List DirEntry) (dirFiles : List FileInput),
      ctx.lines_to_extract = 0 →
      statSum (run ctx od zeroStats dirFiles).2 =
        (enumerateFiles ctx dirFiles).length ∧
      (run ctx od zeroStats dirFiles).2.total_files =
        (enumerateFiles ctx dirFiles).length) := by
  constructor
  · intro x
    refine ⟨le_min (by norm_num) (le_max_left 1 x), min_le_left 16 (max 1 x), ?_⟩
    intro h1 h16
    unfold clampThreads
    rw [max_eq_right h1, min_eq_right h16]
  · intro ctx od dirFiles _
    obtain ⟨h1, h2⟩ := run_statSum ctx od zeroStats dirFiles
    refine ⟨?_, h2⟩
    rw [h1]
    simp [zeroStats, statSum]

/-- Witness: thread request 20 is clamped, and the cap-0 run drains its
queue instead of aborting. -/
theorem C8_no_config_error_witness :
    clampThreads 20 ≤ 16 ∧
    exCtxCap0.lines_to_extract = 0 ∧
    statSum (run exCtxCap0 [] zeroStats [exA]).2 =
      (enumerateFiles exCtxCap0 [exA]).length :=
  ⟨(C8_no_config_error.1 20).2.1, rfl,
    (C8_no_config_error.2 exCtxCap0 [] [exA] rfl).1⟩

/- ------------------------------------------------------------------ -/
/- C9: worker-count invariance machinery                              -/
/- ------------------------------------------------------------------ -/

theorem decide_phase_dupOff (ctx : Ctx) (hdup : ctx.check_duplicates = false)
    (od : List DirEntry) (f : FileInput) :
    decide_phase ctx od f = decidePure ctx f := by
  unfold decidePure decide_phase
  simp [hdup]

theorem pendLookup_append_left (i : Nat) (l1 l2 : List (Nat × Decision)) (d : Decision)
    (h : pendLookup i l1 = some d) : pendLookup i (l1 ++ l2) = some d := by
  induction l1 with
  | nil => simp [pendLookup] at h
  | cons pr rest ih =>
    simp only [pendLookup, List.cons_append] at h ⊢
    by_cases hp : pr.1 = i
    · simpa [hp] using h
    · rw [if_neg hp] at h ⊢
      exact ih h

theorem pendLookup_append_self (i : Nat) (l : List (Nat × Decision)) (d : Decision) :
    (pendLookup i (l ++ [(i, d)])).isSome = true := by
  induction l with
  | nil => simp [pendLookup]
  | cons pr rest ih =>
    by_cases hp : pr.1 = i <;> simp [pendLookup, hp, ih]

theorem pendLookup_mem (i : Nat) (l : List (Nat × Decision)) (d : Decision)
    (h : pendLookup i l = some d) : (i, d) ∈ l := by
  induction l with
  | nil => simp [pendLookup] at h
  | cons pr rest ih =>
    simp only [pendLookup] at h
    by_cases hp : pr.1 = i
    · rw [if_pos hp] at h
      have hpr : pr = (i, d) := by
        rcases pr with ⟨a, b⟩
        simp only at hp
        simp only [Option.some.injEq] at h
        simp [hp, h]
      rw [← hpr]
      exact List.mem_cons_self pr rest
    · rw [if_neg hp] at h
      exact List.mem_cons_of_mem pr (ih h)

theorem pendLookup_filter_ne (i j : Nat) (l : List (Nat × Decision)) (hne : j ≠ i) :
    pendLookup j (l.filter (fun pr => pr.1 != i)) = pendLookup j l := by
  induction l with
  | nil => rfl
  | cons pr rest ih =>
    by_cases hp : pr.1 = i
    · have hb : (pr.1 != i) = false := by simp [hp]
      have hj : pr.1 ≠ j := by omega
      simp only [List.filter_cons, hb, Bool.false_eq_true, if_false, pendLookup]
      rw [ih]
      rw [if_neg hj]
    · have hb : (pr.1 != i) = true := by simp [hp]
      simp only [List.filter_cons, hb, if_pos rfl, pendLookup]
      rw [ih]

theorem finIdxs_count (t : List Ev) (i : Nat) :
    (finIdxs t).count i = t.count (Ev.fin i) := by
  induction t with
  | nil => rfl
  | cons e rest ih =>
    cases e with
    | dec j =>
      simp only [finIdxs, List.count_cons, ih]
      have : (Ev.dec j == Ev.fin i) = false := by
        simp
      rw [this]
      simp
    | fin j =>
      simp only [finIdxs, List.count_cons, ih]
      have : (Ev.fin j == Ev.fin i) = (j == i) := by
        by_cases h : j = i <;> simp [h]
      rw [this]

theorem count_tail_le (e : Ev) (rest : List Ev) (a : Ev) :
    rest.count a ≤ (e :: rest).count a := by
  rw [List.count_cons]
  split <;> omega

theorem count_range_eq (a n : Nat) :
    (List.range n).count a = if a < n then 1 else 0 := by
  induction n with
  | zero => simp
  | succ n ih =>
    rw [List.range_succ, List.count_append, ih]
    by_cases h : a = n
    · subst h
      simp [List.count_cons]
    · have : List.count a [n] = 0 := by
        simp [List.count_cons, List.count_nil]
        exact fun hc => h hc.symm
      rw [this]
      by_cases h2 : a < n
      · rw [if_pos h2, if_pos (Nat.lt_succ_of_lt h2)]
      · rw [if_neg h2, if_neg (by omega)]

theorem statDelta_comm (ctx : Ctx) (jobs : List FileInput) (i j : Nat) (s : Stats) :
    statDelta ctx jobs j (statDelta ctx jobs i s) =
      statDelta ctx jobs i (statDelta ctx jobs j s) := by
  unfold statDelta
  cases hi : jobs[i]? <;> cases hj : jobs[j]? <;> simp
  exact statUpd_comm _ _ _ _ s

theorem decFirst_cons_dec_ne (i j : Nat) (rest : List Ev) (h : i ≠ j) :
    decFirst j (Ev.dec i :: rest) = decFirst j rest := by
  simp [decFirst, h]

theorem decFirst_cons_fin_ne (i j : Nat) (rest : List Ev) (h : i ≠ j) :
    decFirst j (Ev.fin i :: rest) = decFirst j rest := by
  simp [decFirst, h]

theorem traceRun_stats_dupOff (ctx : Ctx) (jobs : List FileInput)
    (hdup : ctx.check_duplicates = false) :
    ∀ (t : List Ev) (st : TState),
    (∀ pr, pr ∈ st.pend → ∃ f, jobs[pr.1]? = some f ∧ pr.2 = decidePure ctx f) →
    (∀ i, t.count (Ev.fin i) ≤ 1) →
    (∀ i, Ev.fin i ∈ t →
      jobs[i]? = none ∨ (pendLookup i st.pend).isSome = true ∨
      (decFirst i t = true ∧ Ev.dec i ∈ t)) →
    (traceRun ctx jobs st t).stats =
      (finIdxs t).foldl (fun s i => statDelta ctx jobs i s) st.stats := by
  intro t
  induction t with
  | nil =>
    intro st _ _ _
    rfl
  | cons e rest ih =>
    intro st hpend hcnt hjust
    have hcnt' : ∀ i, rest.count (Ev.fin i) ≤ 1 :=
      fun i => Nat.le_trans (count_tail_le e rest (Ev.fin i)) (hcnt i)
    cases e with
    | dec i =>
      cases hj : jobs[i]? with
      | none =>
        have hstep : step ctx jobs st (Ev.dec i) = st := by
          simp [step, hj]
        have hfin : finIdxs (Ev.dec i :: rest) = finIdxs rest := rfl
        simp only [traceRun, List.foldl_cons, hstep, hfin]
        apply ih st hpend hcnt'
        intro j hm
        rcases hjust j (List.mem_cons_of_mem _ hm) with h | h | ⟨hdf0, hdm⟩
        · exact Or.inl h
        · exact Or.inr (Or.inl h)
        · by_cases hji : j = i
          · exact Or.inl (hji ▸ hj)
          · refine Or.inr (Or.inr ⟨?_, ?_⟩)
            · rw [← decFirst_cons_dec_ne i j rest (fun h => hji h.symm)]
              exact hdf0
            · rcases List.mem_cons.mp hdm with h2 | h2
              · exact absurd (Ev.dec.inj h2) hji
              · exact h2
      | some f =>
        have hstep : step ctx jobs st (Ev.dec i) =
            { st with pend := st.pend ++ [(i, decide_phase ctx st.outdir f)] } := by
          simp [step, hj]
        have hfin : finIdxs (Ev.dec i :: rest) = finIdxs rest := rfl
        simp only [traceRun, List.foldl_cons, hstep, hfin]
        apply ih
        · intro pr hpr
          rcases List.mem_append.mp hpr with h | h
          · exact hpend pr h
          · have : pr = (i, decide_phase ctx st.outdir f) := by simpa using h
            exact ⟨f, by rw [this]; exact hj,
              by rw [this]; exact decide_phase_dupOff ctx hdup st.outdir f⟩
        · exact hcnt'
        · intro j hm
          rcases hjust j (List.mem_cons_of_mem _ hm) with h | h | ⟨hdf0, hdm⟩
          · exact Or.inl h
          · refine Or.inr (Or.inl ?_)
            obtain ⟨d, hd⟩ := Option.isSome_iff_exists.mp h
            rw [pendLookup_append_left j st.pend _ d hd]
            rfl
          · by_cases hji : j = i
            · subst hji
              exact Or.inr (Or.inl (pendLookup_append_self j st.pend _))
            · refine Or.inr (Or.inr ⟨?_, ?_⟩)
              · rw [← decFirst_cons_dec_ne i j rest (fun h => hji h.symm)]
                exact hdf0
              · rcases List.mem_cons.mp hdm with h2 | h2
                · exact absurd (Ev.dec.inj h2) hji
                · exact h2
    | fin i =>
      have hfinrest : Ev.fin i ∉ rest := by
        have h1 := hcnt i
        rw [List.count_cons] at h1
        simp at h1
        intro hm
        have := List.count_pos_iff.mpr hm
        omega
      rcases hjust i (List.mem_cons_self _ _) with hj | hsome | ⟨hdf0, _⟩
      · have hstep : step ctx jobs st (Ev.fin i) = st := by
          simp [step, hj]
        have hdelta : ∀ s : Stats, statDelta ctx jobs i s = s := by
          intro s
          simp [statDelta, hj]
        simp only [traceRun, List.foldl_cons, hstep, finIdxs, hdelta]
        apply ih st hpend hcnt'
        intro j hm
        rcases hjust j (List.mem_cons_of_mem _ hm) with h | h | ⟨hdfr, hdm⟩
        · exact Or.inl h
        · exact Or.inr (Or.inl h)
        · by_cases hji : j = i
          · exact Or.inl (hji ▸ hj)
          · refine Or.inr (Or.inr ⟨?_, ?_⟩)
            · rw [← decFirst_cons_fin_ne i j rest (fun h => hji h.symm)]
              exact hdfr
            · rcases List.mem_cons.mp hdm with h2 | h2
              · exact absurd h2 (by simp)
              · exact h2
      · obtain ⟨d, hl⟩ := Option.isSome_iff_exists.mp hsome
        obtain ⟨f, hjf, hdf⟩ := hpend (i, d) (pendLookup_mem i st.pend d hl)
        have hstats : (step ctx jobs st (Ev.fin i)).stats = statUpd f d st.stats := by
          simp only [step, hjf, hl]
          exact write_phase_snd ctx (st.outdir, st.stats) f d
        have hpend2 : (step ctx jobs st (Ev.fin i)).pend =
            st.pend.filter (fun pr => pr.1 != i) := by
          simp [step, hjf, hl]
        have hdelta : statDelta ctx jobs i st.stats = statUpd f d st.stats := by
          simp only [statDelta, hjf]
          rw [← hdf]
        have hih := ih (step ctx jobs st (Ev.fin i)) ?hp hcnt' ?hj2
        case hp =>
          intro pr hpr
          rw [hpend2] at hpr
          exact hpend pr (List.mem_of_mem_filter hpr)
        case hj2 =>
          intro j hm
          have hji : j ≠ i := fun h => hfinrest (h ▸ hm)
          rcases hjust j (List.mem_cons_of_mem _ hm) with h | h | ⟨hdfr, hdm⟩
          · exact Or.inl h
          · refine Or.inr (Or.inl ?_)
            rw [hpend2, pendLookup_filter_ne i j st.pend hji]
            exact h
          · refine Or.inr (Or.inr ⟨?_, ?_⟩)
            · rw [← decFirst_cons_fin_ne i j rest (fun h => hji h.symm)]
              exact hdfr
            · rcases List.mem_cons.mp hdm with h2 | h2
              · exact absurd h2 (by simp)
              · exact h2
        simp only [traceRun, List.foldl_cons] at hih ⊢
        rw [hih, hstats, finIdxs, List.foldl_cons, hdelta]
      · simp [decFirst] at hdf0

theorem runJobs_stats_dupOff (ctx : Ctx) (hdup : ctx.check_duplicates = false)
    (l : List FileInput) :
    ∀ (od : List DirEntry) (s : Stats),
    (runJobs ctx (od, s) l).2 =
      l.foldl (fun s f => statUpd f (decidePure ctx f) s) s := by
  induction l with
  | nil => intro od s; rfl
  | cons f l ih =>
    intro od s
    rcases hpf : process_file ctx (od, s) f with ⟨od1, s1⟩
    have hs1 : s1 = statUpd f (decide_phase ctx od f) s := by
      have := process_file_snd ctx (od, s) f
      rw [hpf] at this
      exact this
    rw [decide_phase_dupOff ctx hdup od f] at hs1
    simp only [runJobs, List.foldl_cons, hpf]
    have h2 := ih od1 s1
    simp only [runJobs] at h2
    rw [h2, hs1]

theorem foldl_statDelta_range (ctx : Ctx) (l : List FileInput) :
    ∀ s : Stats,
    (List.range l.length).foldl (fun s i => statDelta ctx l i s) s =
      l.foldl (fun s f => statUpd f (decidePure ctx f) s) s := by
  induction l using List.reverseRecOn with
  | nil => intro s; rfl
  | append_singleton l a ih =>
    intro s
    have hlen : (l ++ [a]).length = l.length + 1 := by simp
    rw [hlen, List.range_succ, List.foldl_append, List.foldl_append]
    simp only [List.foldl_cons, List.foldl_nil]
    have hagree : (List.range l.length).foldl
        (fun s i => statDelta ctx (l ++ [a]) i s) s =
        (List.range l.length).foldl (fun s i => statDelta ctx l i s) s := by
      apply List.foldl_ext
      intro s' i hi
      have hilt : i < l.length := List.mem_range.mp hi
      unfold statDelta
      rw [List.getElem?_append_left hilt]
    rw [hagree, ih s]
    unfold statDelta
    rw [List.getElem?_concat_length]

/-- C9 amended: when duplicate checking is disabled, the final Stats of
ANY valid worker-pool execution (any worker count, any interleaving of
claims and commits) equal those of the sequential one-worker drain of
the same queue — counters are worker-count invariant.  (When duplicate
checking is enabled this fails, because concurrent duplicate scans read
the shared output directory before other workers have written to it.) -/
theorem C9_dupOff_schedule_invariant (ctx : Ctx) (jobs : List FileInput)
    (od : List DirEntry) (s : Stats) (w : Nat) (t : List Ev)
    (hdup : ctx.check_duplicates = false)
    (hv : validTrace w jobs.length t = true) :
    (traceRun ctx jobs ⟨od, s, []⟩ t).stats = (runJobs ctx (od, s) jobs).2 := by
  simp only [validTrace, Bool.and_eq_true, List.all_eq_true] at hv
  obtain ⟨⟨⟨hA, hB⟩, _hI⟩, _hF⟩ := hv
  have hAc : ∀ i, i < jobs.length →
      t.count (Ev.dec i) = 1 ∧ t.count (Ev.fin i) = 1 ∧ decFirst i t = true := by
    intro i hi
    have := hA i (List.mem_range.mpr hi)
    simp only [Bool.and_eq_true, beq_iff_eq] at this
    exact ⟨this.1.1, this.1.2, this.2⟩
  have hBc : ∀ i, Ev.fin i ∈ t → i < jobs.length := by
    intro i hm
    have := hB (Ev.fin i) hm
    simpa using this
  have hcnt : ∀ i, t.count (Ev.fin i) ≤ 1 := by
    intro i
    by_cases hi : i < jobs.length
    · exact Nat.le_of_eq (hAc i hi).2.1
    · have hnm : Ev.fin i ∉ t := fun hm => hi (hBc i hm)
      rw [List.count_eq_zero.mpr hnm]
      omega
  have hjust : ∀ i, Ev.fin i ∈ t →
      jobs[i]? = none ∨
      (pendLookup i (⟨od, s, []⟩ : TState).pend).isSome = true ∨
      (decFirst i t = true ∧ Ev.dec i ∈ t) := by
    intro i hm
    have hi := hBc i hm
    refine Or.inr (Or.inr ⟨(hAc i hi).2.2, ?_⟩)
    have h1 : t.count (Ev.dec i) = 1 := (hAc i hi).1
    have h2 : 0 < t.count (Ev.dec i) := by omega
    exact List.count_pos_iff.mp h2
  have hmain := traceRun_stats_dupOff ctx jobs hdup t ⟨od, s, []⟩
    (by intro pr hpr; simp at hpr) hcnt hjust
  rw [hmain]
  have hperm : (finIdxs t).Perm (List.range jobs.length) := by
    rw [List.perm_iff_count]
    intro a
    rw [finIdxs_count, count_range_eq]
    by_cases ha : a < jobs.length
    · rw [if_pos ha]
      exact (hAc a ha).2.1
    · rw [if_neg ha]
      exact List.count_eq_zero.mpr (fun hm => ha (hBc a hm))
  have hcomm : ∀ x ∈ finIdxs t, ∀ y ∈ finIdxs t, ∀ z : Stats,
      statDelta ctx jobs y (statDelta ctx jobs x z) =
        statDelta ctx jobs x (statDelta ctx jobs y z) := by
    intro x _ y _ z
    exact statDelta_comm ctx jobs x y z
  rw [List.Perm.foldl_eq' hperm hcomm s]
  rw [runJobs_stats_dupOff ctx hdup jobs od s]
  exact foldl_statDelta_range ctx jobs s

/-- Witness: with duplicate checking off, a 3-worker trace over one job
yields the sequential statistics, through the invariance theorem. -/
theorem C9_dupOff_schedule_invariant_witness :
    exCtx.check_duplicates = false ∧
    validTrace 3 1 [Ev.dec 0, Ev.fin 0] = true ∧
    (traceRun exCtx [exA] ⟨[], zeroStats, []⟩ [Ev.dec 0, Ev.fin 0]).stats =
      (runJobs exCtx ([], zeroStats) [exA]).2 :=
  ⟨rfl, by decide,
    C9_dupOff_schedule_invariant exCtx [exA] [] zeroStats 3
      [Ev.dec 0, Ev.fin 0] rfl (by decide)⟩
